import Mathlib

/-!
# Verification of the Toshi retrieval core

A shallow embedding, in Lean 4, of the RAG pipeline of the Toshi repository
(`src/rag/chunker.py`, `src/rag/ingestion.py`, `src/rag/store.py`,
`src/rag/retriever.py`, `src/rag/pipeline.py`), together with theorems that
settle the claims of the natural-language specification against the code.

Modelling conventions:
* Python strings are modelled as `List Char`; Python `str.split`, `str.find`,
  `str.strip`, `in` (substring), `" ".join` are implemented faithfully below.
* Numeric scores (floats in the source) are modelled as `ℚ`.
* The sentence-embedding model and the cross-encoder are external ML models;
  operations that call them are parameterised by an arbitrary function
  (`embed : List Char → List ℚ`, `scorer : List Char → List Char → ℚ`).
* The ChromaDB collection is modelled as a list of rows (`List Entry`);
  a similarity query returns the top-k rows by dot-product similarity
  (the collection is configured with cosine space over normalized vectors,
  where cosine distance is `1 - ⟨v, q⟩`).
-/

unseal Rat.add Rat.mul Rat.sub Rat.inv

namespace Toshi

/-! ## Python text primitives over `List Char` -/

/-- Maximal runs of characters satisfying `keep`, in order (used for
`str.split()` with `keep = not whitespace`, and for regex word runs). -/
def runsAux (keep : Char → Bool) : List Char → List Char → List (List Char)
  | [], acc => if acc = [] then [] else [acc.reverse]
  | c :: rest, acc =>
    if keep c then runsAux keep rest (c :: acc)
    else if acc = [] then runsAux keep rest []
    else acc.reverse :: runsAux keep rest []

/-- Python `str.split()` (no argument): maximal runs of non-whitespace. -/
def splitWords (s : List Char) : List (List Char) :=
  runsAux (fun c => !c.isWhitespace) s []

/-- Python `" ".join(words)`. -/
def joinWords : List (List Char) → List Char
  | [] => []
  | [w] => w
  | w :: ws => w ++ ' ' :: joinWords ws

/-- Python `str.lower()` (ASCII texts in this development). -/
def lowerList (s : List Char) : List Char := s.map Char.toLower

/-- Python `str.strip()`: remove leading and trailing whitespace. -/
def pyStrip (s : List Char) : List Char :=
  ((s.dropWhile Char.isWhitespace).reverse.dropWhile Char.isWhitespace).reverse

/-- Python substring test `needle in hay`. -/
def containsSeq (needle : List Char) : List Char → Bool
  | [] => needle.isPrefixOf []
  | c :: t => needle.isPrefixOf (c :: t) || containsSeq needle t

/-- Helper for Python `str.find`: first index `≥ i` (in the original string)
at which `pat` occurs in the remaining text `l`. -/
def findSubAux (pat : List Char) : List Char → Nat → Option Nat
  | [], i => if pat.isPrefixOf ([] : List Char) then some i else none
  | c :: t, i => if pat.isPrefixOf (c :: t) then some i else findSubAux pat t (i + 1)

/-- Python `hay.find(pat)`, as `Option Nat` (`none` for Python's `-1`). -/
def findSub (hay pat : List Char) : Option Nat := findSubAux pat hay 0

/-! ### Facts about the text primitives -/

theorem runsAux_append_kept (keep : Char → Bool) (w : List Char)
    (hw : ∀ c ∈ w, keep c = true) :
    ∀ (s acc : List Char), runsAux keep (w ++ s) acc = runsAux keep s (w.reverse ++ acc) := by
  induction w with
  | nil => intro s acc; simp
  | cons c w ih =>
    intro s acc
    have hc : keep c = true := hw c (List.mem_cons_self c w)
    have hw' : ∀ x ∈ w, keep x = true := fun x hx => hw x (List.mem_cons_of_mem c hx)
    simp only [List.cons_append, runsAux, hc, if_true]
    show runsAux keep (w ++ s) (c :: acc) = _
    rw [ih hw' s (c :: acc)]
    simp

theorem runsAux_final (keep : Char → Bool) (acc : List Char) :
    runsAux keep [] acc = if acc = [] then [] else [acc.reverse] := rfl

/-- Members of `runsAux` output are nonempty and consist of kept characters. -/
theorem runsAux_forall (keep : Char → Bool) :
    ∀ (s acc : List Char), (∀ c ∈ acc, keep c = true) →
      ∀ w ∈ runsAux keep s acc, w ≠ [] ∧ ∀ c ∈ w, keep c = true := by
  intro s
  induction s with
  | nil =>
    intro acc hacc w hw
    rw [runsAux_final] at hw
    by_cases h : acc = []
    · simp [h] at hw
    · simp [h] at hw
      subst hw
      refine ⟨by simpa using h, ?_⟩
      intro c hc
      exact hacc c (by simpa using hc)
  | cons c rest ih =>
    intro acc hacc w hw
    by_cases hk : keep c = true
    · simp only [runsAux, hk, if_true] at hw
      have hacc' : ∀ x ∈ c :: acc, keep x = true := by
        intro x hx
        rcases List.mem_cons.mp hx with h | h
        · subst h; exact hk
        · exact hacc x h
      exact ih (c :: acc) hacc' w hw
    · simp only [runsAux, hk] at hw
      by_cases ha : acc = []
      · simp only [ha, if_true, Bool.false_eq_true, if_false] at hw
        exact ih [] (by simp) w hw
      · simp only [ha, if_false, Bool.false_eq_true, List.mem_cons] at hw
        rcases hw with hw | hw
        · subst hw
          refine ⟨by simpa using ha, ?_⟩
          intro x hx
          exact hacc x (by simpa using hx)
        · exact ih [] (by simp) w hw

/-- Every word produced by `splitWords` is nonempty and whitespace-free. -/
theorem splitWords_forall (s : List Char) :
    ∀ w ∈ splitWords s, w ≠ [] ∧ ∀ c ∈ w, c.isWhitespace = false := by
  intro w hw
  have := runsAux_forall (fun c => !c.isWhitespace) s [] (by simp) w hw
  exact ⟨this.1, fun c hc => by simpa using this.2 c hc⟩

/-- Round trip: splitting a single-space join of nonempty whitespace-free
words recovers the words. -/
theorem splitWords_joinWords :
    ∀ (ws : List (List Char)), (∀ w ∈ ws, w ≠ []) →
      (∀ w ∈ ws, ∀ c ∈ w, c.isWhitespace = false) →
      splitWords (joinWords ws) = ws := by
  intro ws
  induction ws with
  | nil => intro _ _; rfl
  | cons w ws ih =>
    intro h1 h2
    have hw1 : w ≠ [] := h1 w (List.mem_cons_self w ws)
    have hw2 : ∀ c ∈ w, c.isWhitespace = false := h2 w (List.mem_cons_self w ws)
    have hkeep : ∀ c ∈ w, (!c.isWhitespace) = true := by
      intro c hc; simp [hw2 c hc]
    match ws with
    | [] =>
      have h : splitWords (joinWords [w]) = runsAux (fun c => !c.isWhitespace) (w ++ []) [] := by
        simp [joinWords, splitWords]
      rw [h, runsAux_append_kept _ w hkeep [] [], runsAux_final]
      simp [hw1]
    | w' :: ws' =>
      show runsAux (fun c => !c.isWhitespace) (w ++ ' ' :: joinWords (w' :: ws')) [] = w :: w' :: ws'
      rw [runsAux_append_kept _ w hkeep (' ' :: joinWords (w' :: ws')) []]
      have hne : w.reverse ++ [] ≠ [] := by simpa using hw1
      have hstep : runsAux (fun c => !c.isWhitespace) (' ' :: joinWords (w' :: ws')) (w.reverse ++ []) =
          (w.reverse ++ []).reverse :: runsAux (fun c => !c.isWhitespace) (joinWords (w' :: ws')) [] := by
        simp only [runsAux]
        rw [if_neg (by simp), if_neg hne]
      rw [hstep]
      have hws := ih (fun x hx => h1 x (List.mem_cons_of_mem w hx))
        (fun x hx => h2 x (List.mem_cons_of_mem w hx))
      simp only [splitWords] at hws
      simp [hws]

/-! ## Chunker (`src/rag/chunker.py`) -/

/-- Chunk size in words (`CHUNK_SIZE_WORDS = 400`). -/
def CHUNK_SIZE_WORDS : Nat := 400

/-- Overlap in words shared between consecutive chunks (`OVERLAP_WORDS = 50`). -/
def OVERLAP_WORDS : Nat := 50

/-- Minimum words for a chunk to be worth keeping (`MIN_CHUNK_WORDS = 50`). -/
def MIN_CHUNK_WORDS : Nat := 50

/-- A chunk dict as produced by `chunker.py`. -/
structure Chunk where
  text : List Char
  company : List Char
  cik : List Char
  year : List Char
  filing_type : List Char
  «section» : List Char
  chunk_id : List Char
  parent_section : List Char
deriving DecidableEq, Repr, Inhabited

/-- `f"{cik}_{year}_{section_name}_{chunk_index}"`. -/
def mkChunkId (cik year sectionName : List Char) (chunkIndex : Nat) : List Char :=
  cik ++ '_' :: year ++ '_' :: sectionName ++ '_' :: (toString chunkIndex).toList

/-- The `while start < len(words)` loop of `_chunk_section`: windows of
`CHUNK_SIZE_WORDS` words advancing by `CHUNK_SIZE_WORDS - OVERLAP_WORDS = 350`,
breaking when the remaining tail is shorter than `MIN_CHUNK_WORDS`.

The recursion is structural on an explicit bound `fuel` on the number of
remaining iterations, so the definition evaluates by kernel reduction. Since
`start` advances by 350 ≥ 1 each iteration, any `fuel` with
`words.length - start ≤ 350 * fuel` is sufficient and the value is then
independent of `fuel` (see `chunkLoop_length`); `_chunk_section` passes
`words.length`. -/
def chunkLoop (words : List (List Char))
    (parent sectionName company cik year filingType : List Char) :
    Nat → Nat → Nat → List Chunk
  | 0, _, _ => []
  | fuel + 1, start, chunkIndex =>
    if start < words.length then
      let chunkWords := (words.drop start).take CHUNK_SIZE_WORDS
      if chunkWords.length < MIN_CHUNK_WORDS then []
      else
        { text := joinWords chunkWords
          company := company
          cik := cik
          year := year
          filing_type := filingType
          «section» := sectionName
          chunk_id := mkChunkId cik year sectionName chunkIndex
          parent_section := parent } ::
        chunkLoop words parent sectionName company cik year filingType
          fuel (start + (CHUNK_SIZE_WORDS - OVERLAP_WORDS)) (chunkIndex + 1)
    else []

/-- `_chunk_section(text, section_name, company, cik, year, filing_type)`. -/
def _chunk_section (text sectionName company cik year filingType : List Char) : List Chunk :=
  chunkLoop (splitWords text) text sectionName company cik year filingType
    (splitWords text).length 0 0

/-- Output of `ingestion.py` as consumed by `chunk_filing` (sections as an
insertion-ordered association list, like a Python dict). -/
structure Ingested where
  company : List Char
  cik : List Char
  year : List Char
  filing_type : List Char
  sections : List (List Char × List Char)
deriving DecidableEq, Repr

/-- `chunk_filing(ingested)`: chunk every section that is nonempty and has at
least `MIN_CHUNK_WORDS` whitespace-split words. -/
def chunk_filing (ing : Ingested) : List Chunk :=
  ing.sections.foldl
    (fun acc p =>
      if p.2 = [] ∨ (splitWords p.2).length < MIN_CHUNK_WORDS then acc
      else acc ++ _chunk_section p.2 p.1 ing.company ing.cik ing.year ing.filing_type)
    []

/-! ### Chunk count (claim C3) -/

theorem chunkLoop_length (words : List (List Char))
    (parent sn co ci yr ft : List Char) :
    ∀ (fuel start chunkIndex : Nat),
      words.length - start ≤ (CHUNK_SIZE_WORDS - OVERLAP_WORDS) * fuel →
      (chunkLoop words parent sn co ci yr ft fuel start chunkIndex).length =
        if MIN_CHUNK_WORDS ≤ words.length - start then
          1 + (words.length - start - MIN_CHUNK_WORDS) / (CHUNK_SIZE_WORDS - OVERLAP_WORDS)
        else 0 := by
  intro fuel
  induction fuel with
  | zero =>
    intro start chunkIndex hfuel
    have : ¬ MIN_CHUNK_WORDS ≤ words.length - start := by
      simp only [MIN_CHUNK_WORDS, CHUNK_SIZE_WORDS, OVERLAP_WORDS] at *
      omega
    simp [chunkLoop, this]
  | succ fuel ih =>
    intro start chunkIndex hfuel
    rw [chunkLoop]
    by_cases hlt : start < words.length
    · rw [if_pos hlt]
      have hcw : (((words.drop start).take CHUNK_SIZE_WORDS).length)
          = min CHUNK_SIZE_WORDS (words.length - start) := by
        simp [List.length_take, List.length_drop]
      by_cases hshort : ((words.drop start).take CHUNK_SIZE_WORDS).length < MIN_CHUNK_WORDS
      · rw [if_pos hshort]
        have : ¬ MIN_CHUNK_WORDS ≤ words.length - start := by
          rw [hcw] at hshort
          simp only [MIN_CHUNK_WORDS, CHUNK_SIZE_WORDS] at *
          omega
        simp [this]
      · rw [if_neg hshort]
        have hlen : MIN_CHUNK_WORDS ≤ words.length - start := by
          rw [hcw] at hshort
          simp only [MIN_CHUNK_WORDS, CHUNK_SIZE_WORDS] at *
          omega
        have hfuel' : words.length - (start + (CHUNK_SIZE_WORDS - OVERLAP_WORDS))
            ≤ (CHUNK_SIZE_WORDS - OVERLAP_WORDS) * fuel := by
          simp only [CHUNK_SIZE_WORDS, OVERLAP_WORDS] at *
          omega
        rw [List.length_cons,
          ih (start + (CHUNK_SIZE_WORDS - OVERLAP_WORDS)) (chunkIndex + 1) hfuel']
        by_cases hmore : MIN_CHUNK_WORDS ≤ words.length - (start + (CHUNK_SIZE_WORDS - OVERLAP_WORDS))
        · rw [if_pos hmore, if_pos hlen]
          simp only [MIN_CHUNK_WORDS, CHUNK_SIZE_WORDS, OVERLAP_WORDS] at *
          have h350 : words.length - start - 50 = (words.length - start - 350 - 50) + 350 := by
            omega
          rw [h350, Nat.add_div_right _ (by norm_num)]
          have : words.length - (start + 350) - 50 = words.length - start - 350 - 50 := by omega
          rw [this]
          omega
        · rw [if_neg hmore, if_pos hlen]
          simp only [MIN_CHUNK_WORDS, CHUNK_SIZE_WORDS, OVERLAP_WORDS] at *
          have : words.length - start - 50 < 350 := by omega
          rw [Nat.div_eq_of_lt this]
    · rw [if_neg hlt]
      have : ¬ MIN_CHUNK_WORDS ≤ words.length - start := by
        simp only [MIN_CHUNK_WORDS]
        omega
      simp [this]

/--
**Claim C3, amended.** For a section text with whitespace-split word count
`|W|`, `_chunk_section` emits exactly `1 + ⌊(|W| − MIN_CHUNK_WORDS) / 350⌋`
chunks when `|W| ≥ MIN_CHUNK_WORDS = 50`, and zero chunks otherwise (the loop
breaks only when the remaining tail drops below `MIN_CHUNK_WORDS`, not below
`CHUNK_SIZE_WORDS`). In particular, for `|W| ≥ 400` the count is `1 +
⌊(|W| − 50) / 350⌋`, one more than the claimed `1 + ⌊(|W| − 400) / 350⌋`.
Chunking is deterministic: the model is a pure function of the input.
-/
theorem chunk_count_formula (text sn co ci yr ft : List Char) :
    (_chunk_section text sn co ci yr ft).length =
      (if MIN_CHUNK_WORDS ≤ (splitWords text).length then
        1 + ((splitWords text).length - MIN_CHUNK_WORDS) / (CHUNK_SIZE_WORDS - OVERLAP_WORDS)
      else 0)
    ∧ _chunk_section text sn co ci yr ft = _chunk_section text sn co ci yr ft := by
  refine ⟨?_, rfl⟩
  have := chunkLoop_length (splitWords text) text sn co ci yr ft
    (splitWords text).length 0 0 (by simp [CHUNK_SIZE_WORDS, OVERLAP_WORDS]; omega)
  simpa using this

/-- The chunk-count formula claimed by the spec
(`max(0, 1 + ⌊(|W| − CHUNK_SIZE_WORDS) / STRIDE⌋)` if `|W| ≥ CHUNK_SIZE_WORDS`,
otherwise one chunk iff `|W| ≥ MIN_CHUNK_WORDS`), modelled from the spec's
words for comparison with the code. -/
def claimedChunkCount (w : Nat) : Nat :=
  if CHUNK_SIZE_WORDS ≤ w then max 0 (1 + (w - CHUNK_SIZE_WORDS) / (CHUNK_SIZE_WORDS - OVERLAP_WORDS))
  else if MIN_CHUNK_WORDS ≤ w then 1
  else 0

/-- A concrete section text of exactly 400 whitespace-split words. -/
def demoText400 : List Char := joinWords (List.replicate 400 ['w'])

set_option maxRecDepth 40000 in
/--
**Claim C3, counterexample.** On a section of exactly 400 words the chunker
emits 2 chunks (the second is the 50-word tail starting at stride 350), but
the claimed formula gives `max(0, 1 + ⌊(400 − 400)/350⌋) = 1`.
-/
theorem chunk_count_claim_counterexample :
    (splitWords demoText400).length = 400
    ∧ (_chunk_section demoText400 [] [] [] [] []).length = 2
    ∧ claimedChunkCount 400 = 1 := by
  refine ⟨by decide, by decide, by decide⟩

/-! ### Chunk bounds and overlap (claim C10) -/

/-- The head of a nonempty `chunkLoop` output is the window at `start`,
and the remaining tail at `start` has at least `MIN_CHUNK_WORDS` words. -/
theorem chunkLoop_cons_head (words : List (List Char)) (p sn co ci yr ft : List Char) :
    ∀ (fuel start idx : Nat) (c : Chunk) (t : List Chunk),
      chunkLoop words p sn co ci yr ft fuel start idx = c :: t →
      c.text = joinWords ((words.drop start).take CHUNK_SIZE_WORDS)
      ∧ MIN_CHUNK_WORDS ≤ words.length - start := by
  intro fuel start idx c t h
  cases fuel with
  | zero => simp [chunkLoop] at h
  | succ fuel =>
    simp only [chunkLoop] at h
    split at h
    · split at h
      · simp at h
      · rename_i hshort
        injection h with h1 h2
        refine ⟨by rw [← h1], ?_⟩
        have hcw : (((words.drop start).take CHUNK_SIZE_WORDS)).length
            = min CHUNK_SIZE_WORDS (words.length - start) := by
          simp [List.length_take, List.length_drop]
        rw [hcw] at hshort
        simp only [MIN_CHUNK_WORDS, CHUNK_SIZE_WORDS] at *
        omega
    · simp at h

/-- Every chunk produced by `chunkLoop` is a `CHUNK_SIZE_WORDS`-word window
whose tail length at its start position is at least `MIN_CHUNK_WORDS`. -/
theorem chunkLoop_mem (words : List (List Char)) (p sn co ci yr ft : List Char) :
    ∀ (fuel start idx : Nat) (c : Chunk),
      c ∈ chunkLoop words p sn co ci yr ft fuel start idx →
      ∃ s, MIN_CHUNK_WORDS ≤ words.length - s
        ∧ c.text = joinWords ((words.drop s).take CHUNK_SIZE_WORDS) := by
  intro fuel
  induction fuel with
  | zero => intro start idx c h; simp [chunkLoop] at h
  | succ fuel ih =>
    intro start idx c h
    simp only [chunkLoop] at h
    split at h
    · split at h
      · simp at h
      · rename_i hshort
        rcases List.mem_cons.mp h with hc | hc
        · refine ⟨start, ?_, by rw [hc]⟩
          have hcw : (((words.drop start).take CHUNK_SIZE_WORDS)).length
              = min CHUNK_SIZE_WORDS (words.length - start) := by
            simp [List.length_take, List.length_drop]
          rw [hcw] at hshort
          simp only [MIN_CHUNK_WORDS, CHUNK_SIZE_WORDS] at *
          omega
        · exact ih _ _ c hc
    · simp at h

/-- Two adjacent chunks in a `chunkLoop` output are windows at positions `s`
and `s + 350`, and the window at `s + 350` exists (tail ≥ `MIN_CHUNK_WORDS`). -/
theorem chunkLoop_adjacent (words : List (List Char)) (p sn co ci yr ft : List Char) :
    ∀ (fuel start idx : Nat) (pre post : List Chunk) (a b : Chunk),
      chunkLoop words p sn co ci yr ft fuel start idx = pre ++ a :: b :: post →
      ∃ s, a.text = joinWords ((words.drop s).take CHUNK_SIZE_WORDS)
        ∧ b.text = joinWords ((words.drop (s + (CHUNK_SIZE_WORDS - OVERLAP_WORDS))).take CHUNK_SIZE_WORDS)
        ∧ MIN_CHUNK_WORDS ≤ words.length - (s + (CHUNK_SIZE_WORDS - OVERLAP_WORDS)) := by
  intro fuel
  induction fuel with
  | zero => intro start idx pre post a b h; simp [chunkLoop] at h
  | succ fuel ih =>
    intro start idx pre post a b h
    simp only [chunkLoop] at h
    split at h
    · split at h
      · simp at h
      · cases pre with
        | nil =>
          simp only [List.nil_append] at h
          injection h with h1 h2
          have hb := chunkLoop_cons_head words p sn co ci yr ft fuel
            (start + (CHUNK_SIZE_WORDS - OVERLAP_WORDS)) (idx + 1) b post h2
          exact ⟨start, by rw [← h1], hb.1, hb.2⟩
        | cons q pre' =>
          simp only [List.cons_append] at h
          injection h with h1 h2
          exact ih _ _ pre' post a b h2
    · simp at h

/-- Splitting the text of a word window of `splitWords text` recovers the
window (all its words are nonempty and whitespace-free). -/
theorem splitWords_window (text : List Char) (s k : Nat) :
    splitWords (joinWords (((splitWords text).drop s).take k))
      = ((splitWords text).drop s).take k := by
  apply splitWords_joinWords
  · intro w hw
    exact (splitWords_forall text w
      (List.drop_subset s (splitWords text) (List.take_subset k _ hw))).1
  · intro w hw
    exact (splitWords_forall text w
      (List.drop_subset s (splitWords text) (List.take_subset k _ hw))).2

/--
**Claim C10 (confirmed).** Every chunk `_chunk_section` emits has a
whitespace-split word count in `[MIN_CHUNK_WORDS, CHUNK_SIZE_WORDS] =
[50, 400]`, and for every pair of adjacent chunks of a section the trailing
`OVERLAP_WORDS = 50` words of the first equal the leading 50 words of the
second.
-/
theorem chunk_bounds_and_overlap (text sn co ci yr ft : List Char) :
    (∀ c ∈ _chunk_section text sn co ci yr ft,
        MIN_CHUNK_WORDS ≤ (splitWords c.text).length
        ∧ (splitWords c.text).length ≤ CHUNK_SIZE_WORDS)
    ∧ (∀ (pre post : List Chunk) (a b : Chunk),
        _chunk_section text sn co ci yr ft = pre ++ a :: b :: post →
        (splitWords a.text).drop ((splitWords a.text).length - OVERLAP_WORDS)
          = (splitWords b.text).take OVERLAP_WORDS) := by
  constructor
  · intro c hc
    obtain ⟨s, hs, htext⟩ := chunkLoop_mem (splitWords text) text sn co ci yr ft
      (splitWords text).length 0 0 c hc
    rw [htext, splitWords_window]
    have hlen : (((splitWords text).drop s).take CHUNK_SIZE_WORDS).length
        = min CHUNK_SIZE_WORDS ((splitWords text).length - s) := by
      simp [List.length_take, List.length_drop]
    rw [hlen]
    simp only [MIN_CHUNK_WORDS, CHUNK_SIZE_WORDS] at *
    omega
  · intro pre post a b h
    obtain ⟨s, ha, hb, htail⟩ := chunkLoop_adjacent (splitWords text) text sn co ci yr ft
      (splitWords text).length 0 0 pre post a b h
    rw [ha, hb, splitWords_window, splitWords_window]
    have hfull : CHUNK_SIZE_WORDS ≤ (splitWords text).length - s := by
      simp only [MIN_CHUNK_WORDS, CHUNK_SIZE_WORDS, OVERLAP_WORDS] at *
      omega
    have hlen : (((splitWords text).drop s).take CHUNK_SIZE_WORDS).length
        = CHUNK_SIZE_WORDS := by
      simp only [List.length_take, List.length_drop]
      omega
    rw [hlen]
    simp only [CHUNK_SIZE_WORDS, OVERLAP_WORDS]
    rw [show (400 : Nat) - 50 = 350 from rfl, List.drop_take, List.drop_drop,
      List.take_take]
    norm_num

/-- A concrete section text of exactly 450 whitespace-split words (the
chunker emits a full 400-word chunk followed by a 100-word chunk). -/
def demoText450 : List Char := joinWords (List.replicate 450 ['w'])

set_option maxRecDepth 40000 in
set_option maxHeartbeats 2000000 in
/--
**Claim C10, witness.** On a concrete 450-word section the two adjacent
chunks share exactly the 50-word boundary, and the first chunk's word count
is at least `MIN_CHUNK_WORDS`.
-/
theorem chunk_bounds_and_overlap_witness :
    ((splitWords ((_chunk_section demoText450 [] [] [] [] []).headI).text).drop
        ((splitWords ((_chunk_section demoText450 [] [] [] [] []).headI).text).length - OVERLAP_WORDS)
      = (splitWords (((_chunk_section demoText450 [] [] [] [] []).drop 1).headI).text).take OVERLAP_WORDS)
    ∧ MIN_CHUNK_WORDS ≤ (splitWords ((_chunk_section demoText450 [] [] [] [] []).headI).text).length := by
  have h : _chunk_section demoText450 [] [] [] [] [] =
      [] ++ (_chunk_section demoText450 [] [] [] [] []).headI ::
        ((_chunk_section demoText450 [] [] [] [] []).drop 1).headI :: [] := by decide
  refine ⟨(chunk_bounds_and_overlap demoText450 [] [] [] [] []).2 [] [] _ _ h, ?_⟩
  have hmem : (_chunk_section demoText450 [] [] [] [] []).headI
      ∈ _chunk_section demoText450 [] [] [] [] [] := by
    rw [h]; simp
  exact ((chunk_bounds_and_overlap demoText450 [] [] [] [] []).1 _ hmem).1

/-! ## Section extraction (`src/rag/ingestion.py`, `_extract_sections`) -/

/-- Minimum section length in characters (`MIN_SECTION_LENGTH = 500`). -/
def MIN_SECTION_LENGTH : Nat := 500

/-- The four canonical 10-K section names (keys of `SECTION_MARKERS`),
in dict insertion order. -/
inductive SectionName
  | business
  | risk_factors
  | mda
  | financials
deriving DecidableEq, Repr

/-- `SECTION_MARKERS` insertion order. -/
def sectionList : List SectionName :=
  [.business, .risk_factors, .mda, .financials]

/-- The heading marker strings of `SECTION_MARKERS` (all lowercase). The
apostrophes of the `mda` markers are written via `Char.ofNat` (39 is `'`,
8217 is the right single quotation mark of `’`). -/
def markersOf : SectionName → List (List Char)
  | .business => ["item 1.".toList, "item 1 ".toList, "business overview".toList]
  | .risk_factors => ["item 1a.".toList, "item 1a ".toList, "risk factors".toList]
  | .mda => ["item 7.".toList, "item 7 ".toList,
      "management".toList ++ Char.ofNat 39 :: "s discussion".toList,
      "management&#8217;s discussion".toList,
      "management".toList ++ Char.ofNat 8217 :: "s discussion".toList]
  | .financials => ["item 8.".toList, "item 8 ".toList, "financial statements".toList]

/-- The result dict of `_extract_sections`: one (possibly empty) text per
canonical section, initialized to empty strings. -/
structure Sections where
  business : List Char := []
  risk_factors : List Char := []
  mda : List Char := []
  financials : List Char := []
deriving DecidableEq, Repr

/-- `sections[section_name] = value`. -/
def setSection (s : Sections) : SectionName → List Char → Sections
  | .business, v => { s with business := v }
  | .risk_factors, v => { s with risk_factors := v }
  | .mda, v => { s with mda := v }
  | .financials, v => { s with financials := v }

/-- The inner loop `for marker in markers: pos = text_lower.find(marker);
if pos != -1: positions[section_name] = pos; break`. -/
def markerPos (tl : List Char) : List (List Char) → Option Nat
  | [] => none
  | m :: rest =>
    match findSub tl m with
    | some p => some p
    | none => markerPos tl rest

/-- The `positions` dict of `_extract_sections`, in insertion order. -/
def sectionPositions (tl : List Char) : List (SectionName × Nat) :=
  sectionList.filterMap (fun n => (markerPos tl (markersOf n)).map (fun p => (n, p)))

/-- Stable insertion (ascending by position) for the model of Python's
stable `sorted(positions.items(), key=lambda x: x[1])`. -/
def insertPos (x : SectionName × Nat) : List (SectionName × Nat) → List (SectionName × Nat)
  | [] => [x]
  | y :: ys => if x.2 ≤ y.2 then x :: y :: ys else y :: insertPos x ys

/-- Stable sort by position (ascending). -/
def sortPos : List (SectionName × Nat) → List (SectionName × Nat)
  | [] => []
  | x :: xs => insertPos x (sortPos xs)

/-- The extraction loop: each section's slice runs from its position to the
next section's position (or end of document), is stripped, and is kept only
if its length is at least `MIN_SECTION_LENGTH`. -/
def assignSections (text : List Char) : List (SectionName × Nat) → Sections → Sections
  | [], acc => acc
  | (n, p) :: rest, acc =>
    let e := match rest with
      | [] => text.length
      | (_, p2) :: _ => p2
    let sl := pyStrip ((text.drop p).take (e - p))
    let acc' := if MIN_SECTION_LENGTH ≤ sl.length then setSection acc n sl else acc
    assignSections text rest acc'

/-- `_extract_sections(text)`: locate each section's heading with
`str.find` on the lowercased text, sort by position, slice between
consecutive positions, strip, and keep slices of length ≥ 500. -/
def _extract_sections (text : List Char) : Sections :=
  assignSections text (sortPos (sectionPositions (lowerList text))) {}

/-- Scan of all suffixes of the text, keeping the index of the last one at
which any of the markers matches. -/
def lastMatchAux (ms : List (List Char)) : List Char → Nat → Option Nat → Option Nat
  | [], i, acc => if ms.any (fun m => m.isPrefixOf ([] : List Char)) then some i else acc
  | l@(_ :: t), i, acc =>
    lastMatchAux ms t (i + 1) (if ms.any (fun m => m.isPrefixOf l) then some i else acc)

/-- Modelled from the spec's words for claim C2: "the chosen occurrence is
the **last** match in the document, not the first". The position chosen for
a section is the last index at which any of its heading markers matches;
slicing is otherwise identical to `_extract_sections`. -/
def lastMatchPos (tl : List Char) (ms : List (List Char)) : Option Nat :=
  lastMatchAux ms tl 0 none

/-- The positions dict of the last-match variant (claim C2's reading). -/
def sectionPositionsLast (tl : List Char) : List (SectionName × Nat) :=
  sectionList.filterMap (fun n => (lastMatchPos tl (markersOf n)).map (fun p => (n, p)))

/-- The section extractor as the spec describes it (last match wins). -/
def extractSectionsLastMatch (text : List Char) : Sections :=
  assignSections text (sortPos (sectionPositionsLast (lowerList text))) {}

/-! ### `str.find` returns the first occurrence (claim C2) -/

theorem findSubAux_spec (pat : List Char) :
    ∀ (l : List Char) (i p : Nat), findSubAux pat l i = some p →
      i ≤ p ∧ pat.isPrefixOf (l.drop (p - i)) = true
      ∧ ∀ q, q < p - i → pat.isPrefixOf (l.drop q) = false := by
  intro l
  induction l with
  | nil =>
    intro i p h
    simp only [findSubAux] at h
    split at h
    · rename_i hpre
      cases h
      refine ⟨le_refl _, by simpa using hpre, ?_⟩
      intro q hq
      omega
    · exact absurd h (by simp)
  | cons c t ih =>
    intro i p h
    simp only [findSubAux] at h
    split at h
    · rename_i hpre
      cases h
      refine ⟨le_refl _, by simpa using hpre, ?_⟩
      intro q hq
      omega
    · rename_i hpre
      obtain ⟨hip, hp, hfirst⟩ := ih (i + 1) p h
      refine ⟨by omega, ?_, ?_⟩
      · have : p - i = (p - (i + 1)) + 1 := by omega
        rw [this]
        simpa using hp
      · intro q hq
        match q with
        | 0 =>
          simp only [List.drop_zero]
          exact Bool.eq_false_iff.mpr hpre
        | q' + 1 =>
          have : q' < p - (i + 1) := by omega
          simpa using hfirst q' this

theorem markerPos_spec :
    ∀ (ms : List (List Char)) (tl : List Char) (p : Nat),
      markerPos tl ms = some p → ∃ m ∈ ms, findSub tl m = some p := by
  intro ms
  induction ms with
  | nil => intro tl p h; simp [markerPos] at h
  | cons m rest ih =>
    intro tl p h
    simp only [markerPos] at h
    split at h
    · rename_i q hq
      cases h
      exact ⟨m, List.mem_cons_self m rest, hq⟩
    · obtain ⟨m', hm', hf⟩ := ih tl p h
      exact ⟨m', List.mem_cons_of_mem m hm', hf⟩

/--
**Claim C2, amended.** `_extract_sections` slices each located section at
the position of the **first** match (`str.find`) of the first matching
heading marker in the lowercased document, not the last match: every
position in the `positions` dict is a match position of one of the
section's markers with no earlier match of that marker.
-/
theorem extract_sections_first_match (text : List Char) :
    _extract_sections text
      = assignSections text (sortPos (sectionPositions (lowerList text))) {}
    ∧ ∀ (n : SectionName) (p : Nat), (n, p) ∈ sectionPositions (lowerList text) →
        ∃ m, m ∈ markersOf n
          ∧ m.isPrefixOf ((lowerList text).drop p) = true
          ∧ ∀ q, q < p → m.isPrefixOf ((lowerList text).drop q) = false := by
  refine ⟨rfl, ?_⟩
  intro n p hmem
  obtain ⟨n', _, hf⟩ := List.mem_filterMap.mp hmem
  obtain ⟨q, hq, heq⟩ := Option.map_eq_some'.mp hf
  injection heq with h1 h2
  subst h1
  subst h2
  obtain ⟨m, hm, hfind⟩ := markerPos_spec (markersOf n') (lowerList text) q hq
  obtain ⟨_, hpre, hfirst⟩ := findSubAux_spec m (lowerList text) 0 q hfind
  exact ⟨m, hm, by simpa using hpre, fun r hr => by simpa using hfirst r (by omega)⟩

/-- A concrete filing body whose risk-factors heading occurs twice: once in
a table-of-contents prefix (position 0) and once late in the document
(position 310). The whole document from position 0 is 519 characters
(≥ 500, kept); the slice from position 310 is 209 characters (< 500, so the
last-match variant drops it and leaves the section empty). -/
def demoFiling : List Char :=
  "item 1a. ".toList ++ List.replicate 300 'q'
    ++ " item 1a. ".toList ++ List.replicate 200 'r'

set_option maxRecDepth 40000 in
set_option maxHeartbeats 2000000 in
/--
**Claim C2, counterexample.** On a document where the risk-factors heading
matches at positions 0 (table of contents) and 213 (body), the code slices
from the first match while the spec's last-match extractor slices from the
last; the two results differ.
-/
theorem extract_sections_claim_counterexample :
    _extract_sections demoFiling ≠ extractSectionsLastMatch demoFiling := by
  decide

set_option maxRecDepth 4000 in
/--
**Claim C2, witness.** On the concrete text `"item 1a. xx"` the located
risk-factors position 0 is a first match of the marker `"item 1a."`.
-/
theorem extract_sections_first_match_witness :
    ∃ m, m ∈ markersOf SectionName.risk_factors
      ∧ m.isPrefixOf ((lowerList "item 1a. xx".toList).drop 0) = true
      ∧ ∀ q, q < 0 → m.isPrefixOf ((lowerList "item 1a. xx".toList).drop q) = false :=
  (extract_sections_first_match "item 1a. xx".toList).2
    SectionName.risk_factors 0 (by decide)

/-! ## Retriever (`src/rag/retriever.py`): keywords, CRAG, rerank -/

/-- The CRAG thresholds and final output size of `retriever.py`. -/
def CRAG_CORRECT : ℚ := 7/10

/-- `CRAG_AMBIGUOUS = 0.3`. -/
def CRAG_AMBIGUOUS : ℚ := 3/10

/-- `TOP_K = 5`. -/
def TOP_K : Nat := 5

/-- A chunk dict as it flows through the retriever (`.get` defaults model
missing keys: `crag_trimmed` defaults to false, `rerank_score` is absent
until reranking sets it). -/
structure RChunk where
  text : List Char
  company : List Char := []
  cik : List Char := []
  year : List Char := []
  quarter : List Char := []
  filing_type : List Char := []
  «section» : List Char := []
  crag_trimmed : Bool := false
  rerank_score : Option ℚ := none
deriving DecidableEq, Repr, Inhabited

/-- The stop-word set of `_extract_keywords`. -/
def stopWords : List (List Char) :=
  ["what", "how", "did", "does", "is", "are", "was", "were",
   "the", "a", "an", "in", "on", "at", "to", "for", "of",
   "and", "or", "but", "about", "their", "its", "they", "it",
   "this", "that", "these", "those", "with", "from", "tell",
   "me", "us", "our", "your", "my", "has", "have", "had",
   "been", "be", "do", "say", "says", "said"].map String.toList

/-- A regex word character (`\w`, ASCII texts in this development). -/
def isWordChar (c : Char) : Bool := c.isAlphanum || c = '_'

/-- A lowercase ASCII letter (`[a-z]`). -/
def isLowerAlpha (c : Char) : Bool := 'a' ≤ c && c ≤ 'z'

/-- `re.findall(r"\b[a-z]+\b", query.lower())`: the maximal word-character
runs of the lowercased query that consist purely of `[a-z]` letters (a run
touching a digit or underscore has no word boundary inside it, so partial
matches are impossible). -/
def findLowerWords (q : List Char) : List (List Char) :=
  (runsAux isWordChar (lowerList q) []).filter (fun w => w.all isLowerAlpha)

/-- `_extract_keywords(query)`: regex words, minus stop words, length > 2. -/
def _extract_keywords (q : List Char) : List (List Char) :=
  (findLowerWords q).filter (fun w => decide (w ∉ stopWords) && decide (2 < w.length))

/-- `np.dot` on equal-length vectors. -/
def dotQ (a b : List ℚ) : ℚ := (List.zipWith (· * ·) a b).sum

/-- `max(0.0, min(1.0, x))`. -/
def clamp01 (x : ℚ) : ℚ := max 0 (min 1 x)

/-- `_crag_score(chunk, query_embedding, query_keywords)`:
40% keyword overlap + 60% clamped embedding similarity. -/
def _crag_score (embed : List Char → List ℚ) (queryEmbedding : List ℚ)
    (queryKeywords : List (List Char)) (chunk : RChunk) : ℚ :=
  let text := lowerList chunk.text
  let keywordScore : ℚ :=
    if queryKeywords = [] then 1/2
    else ((queryKeywords.filter (fun kw => containsSeq kw text)).length : ℚ)
      / (queryKeywords.length : ℚ)
  let similarity := clamp01 (dotQ (embed chunk.text) queryEmbedding)
  2/5 * keywordScore + 3/5 * similarity

/-- Head-of-list whitespace test for the sentence splitter. -/
def headIsWs : List Char → Bool
  | [] => false
  | d :: _ => d.isWhitespace

/-- `re.split(r"(?<=[.!?])\s+", text)`: split after sentence punctuation
followed by whitespace, consuming the whitespace run. Structural recursion
on a bound `fuel` on the remaining characters (each step consumes at least
one character, so `text.length` is always sufficient and the value is then
independent of `fuel`). -/
def splitSentencesAux : Nat → List Char → List Char → List (List Char)
  | _, [], acc => [acc.reverse]
  | 0, l, acc => [acc.reverse ++ l]
  | fuel + 1, c :: rest, acc =>
    if (c = '.' || c = '!' || c = '?') && headIsWs rest then
      (c :: acc).reverse ::
        splitSentencesAux fuel (rest.dropWhile Char.isWhitespace) []
    else splitSentencesAux fuel rest (c :: acc)

/-- `_extract_relevant_sentences(text, keywords)`: keep sentences containing
at least one keyword (substring on the lowercased sentence), join, strip. -/
def _extract_relevant_sentences (text : List Char) (keywords : List (List Char)) : List Char :=
  let sentences := splitSentencesAux text.length text []
  let relevant := sentences.filter (fun s => keywords.any (fun kw => containsSeq kw (lowerList s)))
  pyStrip (joinWords relevant)

/-- `_apply_crag_thresholds(scored, query_keywords, correct, ambiguous)`:
keep full chunks scoring ≥ correct; trim chunks scoring in
[ambiguous, correct) to their relevant sentences (dropping them if nothing
survives); discard the rest. -/
def _apply_crag_thresholds (scored : List (ℚ × RChunk)) (queryKeywords : List (List Char))
    (correctThreshold ambiguousThreshold : ℚ) : List RChunk :=
  match scored with
  | [] => []
  | (score, chunk) :: rest =>
    if correctThreshold ≤ score then
      chunk :: _apply_crag_thresholds rest queryKeywords correctThreshold ambiguousThreshold
    else if ambiguousThreshold ≤ score then
      let trimmed := _extract_relevant_sentences chunk.text queryKeywords
      if trimmed ≠ [] then
        { chunk with text := trimmed, crag_trimmed := true } ::
          _apply_crag_thresholds rest queryKeywords correctThreshold ambiguousThreshold
      else _apply_crag_thresholds rest queryKeywords correctThreshold ambiguousThreshold
    else _apply_crag_thresholds rest queryKeywords correctThreshold ambiguousThreshold

/-- The `scored` list built by `crag_filter` (each chunk paired with its
CRAG score against the raw query). -/
def scoredOf (embed : List Char → List ℚ) (q : List Char) (chunks : List RChunk) :
    List (ℚ × RChunk) :=
  chunks.map (fun c => (_crag_score embed (embed q) (_extract_keywords q) c, c))

/-- The `result` of `crag_filter` after the threshold passes: the strict
thresholds (0.7, 0.3), relaxed to (0.4, 0.15) when fewer than 2 survive. -/
def cragSurvivors (embed : List Char → List ℚ) (q : List Char) (chunks : List RChunk) :
    List RChunk :=
  let r1 := _apply_crag_thresholds (scoredOf embed q chunks) (_extract_keywords q)
    CRAG_CORRECT CRAG_AMBIGUOUS
  if r1.length < 2 then
    _apply_crag_thresholds (scoredOf embed q chunks) (_extract_keywords q) (2/5) (3/20)
  else r1

/-- `crag_filter(query, chunks)`: score, apply thresholds (0.7, 0.3), relax
to (0.4, 0.15) if fewer than 2 survive, and fall back to the first three
scored chunks if none survive. -/
def crag_filter (embed : List Char → List ℚ) (q : List Char) (chunks : List RChunk) :
    List RChunk :=
  if chunks = [] then []
  else
    let scored := scoredOf embed q chunks
    let result := cragSurvivors embed q chunks
    if result = [] then (scored.take 3).map (fun p => p.2) else result

/-! ### CRAG floor (claim C8) -/

/--
**Claim C8 (confirmed).** For every non-empty chunk list, `crag_filter`
returns at least one chunk: either a threshold pass is non-empty, or the
final fallback returns the (non-empty) first three scored chunks.
-/
theorem crag_filter_nonempty (embed : List Char → List ℚ) (q : List Char)
    (chunks : List RChunk) (h : chunks ≠ []) :
    crag_filter embed q chunks ≠ [] := by
  simp only [crag_filter, if_neg h]
  by_cases hz : cragSurvivors embed q chunks = []
  · rw [if_pos hz]
    match chunks, h with
    | c :: cs, _ => simp [scoredOf]
  · rw [if_neg hz]
    exact hz

/-- **Claim C8, witness.** A concrete one-chunk list survives CRAG. -/
theorem crag_filter_nonempty_witness :
    crag_filter (fun _ => []) "q".toList [{ text := "t".toList }] ≠ [] :=
  crag_filter_nonempty (fun _ => []) "q".toList [{ text := "t".toList }] (by decide)

/-! ### CRAG final fallback (claim C4) -/

/--
**Claim C4, amended.** When the strict thresholds leave fewer than 2
survivors and the relaxed thresholds (0.4, 0.15) leave zero, `crag_filter`
returns the **first three chunks of the scored list in input order**,
unmodified (full text, no trimming) — not the three highest-scoring ones.
-/
theorem crag_fallback_first_three (embed : List Char → List ℚ) (q : List Char)
    (chunks : List RChunk) (h1 : chunks ≠ [])
    (h2 : (_apply_crag_thresholds (scoredOf embed q chunks) (_extract_keywords q)
            CRAG_CORRECT CRAG_AMBIGUOUS).length < 2)
    (h3 : _apply_crag_thresholds (scoredOf embed q chunks) (_extract_keywords q)
            (2/5) (3/20) = []) :
    crag_filter embed q chunks = chunks.take 3 := by
  have hs : cragSurvivors embed q chunks = [] := by
    simp only [cragSurvivors, if_pos h2]
    exact h3
  simp only [crag_filter, if_neg h1, hs, if_pos rfl]
  simp only [scoredOf]
  rw [← List.map_take, List.map_map]
  have hid : ((fun (p : ℚ × RChunk) => p.2)
      ∘ fun c => (_crag_score embed (embed q) (_extract_keywords q) c, c)) = fun c => c := rfl
  rw [hid]
  simp

/-- The query and embedding used in the C4 counterexample: one keyword
("zebra") absent from all four chunk texts, and four distinct similarities
0.01 < 0.02 < 0.03 < 0.1, so every CRAG score is below 0.15 and distinct. -/
def embedDemo : List Char → List ℚ := fun t =>
  if t = "zebra".toList then [1]
  else if t = "aa".toList then [1/100]
  else if t = "bb".toList then [1/50]
  else if t = "cc".toList then [3/100]
  else if t = "dd".toList then [1/10]
  else []

/-- The four chunks of the C4 counterexample. -/
def cA : RChunk := { text := "aa".toList }

/-- Second chunk of the C4 counterexample. -/
def cB : RChunk := { text := "bb".toList }

/-- Third chunk of the C4 counterexample. -/
def cC : RChunk := { text := "cc".toList }

/-- Fourth (highest-scoring) chunk of the C4 counterexample. -/
def cD : RChunk := { text := "dd".toList }

/--
**Claim C4, counterexample.** With all four scores below 0.15 the filter
returns the first three chunks in input order, even though the excluded
fourth chunk scores strictly higher than the included first one — so the
fallback does not return the three highest-scoring chunks.
-/
theorem crag_fallback_claim_counterexample :
    crag_filter embedDemo "zebra".toList [cA, cB, cC, cD] = [cA, cB, cC]
    ∧ cD ∉ crag_filter embedDemo "zebra".toList [cA, cB, cC, cD]
    ∧ _crag_score embedDemo (embedDemo "zebra".toList) (_extract_keywords "zebra".toList) cA
      < _crag_score embedDemo (embedDemo "zebra".toList) (_extract_keywords "zebra".toList) cD := by
  refine ⟨by decide, by decide, by decide⟩

/--
**Claim C4, witness (for the amended theorem).** The amended fallback
behaviour on the concrete four-chunk input.
-/
theorem crag_fallback_first_three_witness :
    crag_filter embedDemo "zebra".toList [cA, cB, cC, cD] = [cA, cB, cC, cD].take 3 :=
  crag_fallback_first_three embedDemo "zebra".toList [cA, cB, cC, cD]
    (by decide) (by decide) (by decide)

/-! ### Cross-encoder reranking (claim C9) -/

/-- Python `round(x, 4)` helper: round to the nearest integer, ties to even
(banker's rounding). -/
def roundHalfEven (x : ℚ) : ℤ :=
  let f := ⌊x⌋
  let r := x - f
  if r < 1/2 then f
  else if 1/2 < r then f + 1
  else if f % 2 = 0 then f else f + 1

/-- `round(float(score), 4)`. -/
def round4 (x : ℚ) : ℚ := (roundHalfEven (x * 10000) : ℚ) / 10000

/-- Stable descending insertion for the model of Python's stable
`sorted(..., key=lambda x: x[0], reverse=True)`: an element goes after all
earlier elements with a greater-or-equal key. -/
def insertScored (x : ℚ × RChunk) : List (ℚ × RChunk) → List (ℚ × RChunk)
  | [] => [x]
  | y :: ys => if x.1 < y.1 then y :: insertScored x ys else x :: y :: ys

/-- Stable sort, descending by score. -/
def sortScoredDesc : List (ℚ × RChunk) → List (ℚ × RChunk)
  | [] => []
  | x :: xs => insertScored x (sortScoredDesc xs)

/-- `rerank(query, chunks)`: score `(query, chunk_text)` pairs with the
cross-encoder (modelled by the parameter `scorer`), sort descending, take
`TOP_K`, and attach `rerank_score` rounded to 4 decimals. A single-chunk
input bypasses the model and is returned as-is. -/
def rerank (scorer : List Char → List Char → ℚ) (query : List Char)
    (chunks : List RChunk) : List RChunk :=
  if chunks = [] then []
  else if chunks.length = 1 then chunks
  else
    let scores := chunks.map (fun c => scorer query c.text)
    let scoredChunks := sortScoredDesc (scores.zip chunks)
    (scoredChunks.take TOP_K).map
      (fun p => { p.2 with rerank_score := some (round4 p.1) })

theorem length_insertScored (x : ℚ × RChunk) :
    ∀ l, (insertScored x l).length = l.length + 1 := by
  intro l
  induction l with
  | nil => rfl
  | cons y ys ih =>
    simp only [insertScored]
    split
    · simp [ih]
    · simp

theorem length_sortScoredDesc : ∀ l, (sortScoredDesc l).length = l.length := by
  intro l
  induction l with
  | nil => rfl
  | cons x xs ih => simp [sortScoredDesc, length_insertScored, ih]

theorem mem_insertScored (x : ℚ × RChunk) :
    ∀ l p, p ∈ insertScored x l → p = x ∨ p ∈ l := by
  intro l
  induction l with
  | nil =>
    intro p hp
    simp only [insertScored, List.mem_singleton] at hp
    exact Or.inl hp
  | cons y ys ih =>
    intro p hp
    simp only [insertScored] at hp
    split at hp
    · rcases List.mem_cons.mp hp with h | h
      · exact Or.inr (List.mem_cons.mpr (Or.inl h))
      · rcases ih p h with h' | h'
        · exact Or.inl h'
        · exact Or.inr (List.mem_cons.mpr (Or.inr h'))
    · rcases List.mem_cons.mp hp with h | h
      · exact Or.inl h
      · exact Or.inr h

theorem mem_sortScoredDesc : ∀ l p, p ∈ sortScoredDesc l → p ∈ l := by
  intro l
  induction l with
  | nil => intro p hp; simp [sortScoredDesc] at hp
  | cons x xs ih =>
    intro p hp
    rcases mem_insertScored x _ p hp with h | h
    · simp [h]
    · exact List.mem_cons.mpr (Or.inr (ih p h))

theorem chain_insertScored (x : ℚ × RChunk) :
    ∀ l, l.Chain' (fun a b => b.1 ≤ a.1) →
      (insertScored x l).Chain' (fun a b => b.1 ≤ a.1) := by
  intro l
  induction l with
  | nil => intro _; simp [insertScored]
  | cons y ys ih =>
    intro h
    simp only [insertScored]
    split
    · rename_i hxy
      rw [List.chain'_cons']
      refine ⟨?_, ih (h.tail)⟩
      intro z hz
      cases ys with
      | nil =>
        simp only [insertScored, List.head?] at hz
        cases hz
        exact le_of_lt hxy
      | cons w ws =>
        simp only [insertScored] at hz
        split at hz
        · simp only [List.head?, Option.mem_def, Option.some.injEq] at hz
          subst hz
          exact (List.chain'_cons.mp h).1
        · simp only [List.head?, Option.mem_def, Option.some.injEq] at hz
          subst hz
          exact le_of_lt hxy
    · rename_i hxy
      exact List.chain'_cons.mpr ⟨not_lt.mp hxy, h⟩

theorem chain_sortScoredDesc : ∀ l, (sortScoredDesc l).Chain' (fun a b => b.1 ≤ a.1) := by
  intro l
  induction l with
  | nil => simp [sortScoredDesc]
  | cons x xs ih => exact chain_insertScored x _ ih

/-- An element of `(l.map f).zip l` is of the form `(f c, c)`. -/
theorem zip_map_fst {f : RChunk → ℚ} :
    ∀ (l : List RChunk) (p : ℚ × RChunk), p ∈ (l.map f).zip l → p.1 = f p.2 := by
  intro l
  induction l with
  | nil => intro p hp; simp at hp
  | cons c cs ih =>
    intro p hp
    rcases List.mem_cons.mp hp with h | h
    · subst h; rfl
    · exact ih p h

/-- Transport the descending chain through the `rerank_score` attachment. -/
theorem chain_map_attach (scorer : List Char → List Char → ℚ) (q : List Char) :
    ∀ (l : List (ℚ × RChunk)), (∀ p ∈ l, p.1 = scorer q p.2.text) →
      l.Chain' (fun a b => b.1 ≤ a.1) →
      (l.map (fun p => { p.2 with rerank_score := some (round4 p.1) })).Chain'
        (fun a b => scorer q b.text ≤ scorer q a.text) := by
  intro l
  induction l with
  | nil => intro _ _; simp
  | cons p ps ih =>
    intro hval hchain
    cases ps with
    | nil => simp
    | cons p' ps' =>
      rw [List.map_cons, List.map_cons, List.chain'_cons]
      have h1 : p.1 = scorer q p.2.text := hval p (List.mem_cons_self p _)
      have h2 : p'.1 = scorer q p'.2.text :=
        hval p' (List.mem_cons_of_mem p (List.mem_cons_self p' _))
      refine ⟨?_, ?_⟩
      · show scorer q p'.2.text ≤ scorer q p.2.text
        rw [← h1, ← h2]
        exact (List.chain'_cons.mp hchain).1
      · have hrest := ih (fun r hr => hval r (List.mem_cons_of_mem p hr))
          (List.chain'_cons.mp hchain).2
        rw [List.map_cons] at hrest
        exact hrest

/--
**Claim C9, amended.** Reranking returns exactly
`min(TOP_K, |chunks|)` chunks. When the input has at least two chunks, the
result is sorted by descending cross-encoder score and every returned chunk
carries `rerank_score = round4(score)`. A single-chunk input bypasses the
model and is returned **unmodified** (no `rerank_score` attached).
-/
theorem rerank_spec (scorer : List Char → List Char → ℚ) (q : List Char)
    (chunks : List RChunk) :
    (rerank scorer q chunks).length = min TOP_K chunks.length
    ∧ (1 < chunks.length →
        (rerank scorer q chunks).Chain' (fun a b => scorer q b.text ≤ scorer q a.text)
        ∧ ∀ c ∈ rerank scorer q chunks, c.rerank_score = some (round4 (scorer q c.text)))
    ∧ (chunks.length = 1 → rerank scorer q chunks = chunks) := by
  refine ⟨?_, ?_, ?_⟩
  · by_cases h0 : chunks = []
    · subst h0; simp [rerank, TOP_K]
    · by_cases h1 : chunks.length = 1
      · simp [rerank, if_neg h0, if_pos h1, h1, TOP_K]
      · simp only [rerank, if_neg h0, if_neg h1]
        rw [List.length_map, List.length_take, length_sortScoredDesc,
          List.length_zip, List.length_map]
        simp
  · intro hlen
    have h0 : chunks ≠ [] := by
      intro h; rw [h] at hlen; simp at hlen
    have h1 : chunks.length ≠ 1 := by omega
    constructor
    · simp only [rerank, if_neg h0, if_neg h1]
      apply chain_map_attach
      · intro p hp
        exact zip_map_fst chunks p
          (mem_sortScoredDesc _ p (List.take_subset TOP_K _ hp))
      · exact (chain_sortScoredDesc _).take TOP_K
    · intro c hc
      simp only [rerank, if_neg h0, if_neg h1] at hc
      obtain ⟨p, hp, hpc⟩ := List.mem_map.mp hc
      have hval : p.1 = scorer q p.2.text :=
        zip_map_fst chunks p (mem_sortScoredDesc _ p (List.take_subset TOP_K _ hp))
      rw [← hpc]
      show some (round4 p.1) = some (round4 (scorer q p.2.text))
      rw [hval]
  · intro h1
    have h0 : chunks ≠ [] := by
      intro h; rw [h] at h1; simp at h1
    simp [rerank, if_neg h0, if_pos h1]

/-- Cross-encoder stub for the C9 witness and counterexample. -/
def scDemo : List Char → List Char → ℚ := fun _ t =>
  if t = "t1".toList then 1/4 else if t = "t2".toList then 3/4 else 0

/-- First chunk of the C9 witness. -/
def w1 : RChunk := { text := "t1".toList }

/-- Second chunk of the C9 witness. -/
def w2 : RChunk := { text := "t2".toList }

/-- Third chunk of the C9 witness. -/
def w3 : RChunk := { text := "t3".toList }

/--
**Claim C9, witness.** The amended rerank behaviour on a concrete
three-chunk input.
-/
theorem rerank_spec_witness :
    (rerank scDemo [] [w1, w2, w3]).length = min TOP_K 3
    ∧ (rerank scDemo [] [w1, w2, w3]).Chain'
        (fun a b => scDemo [] b.text ≤ scDemo [] a.text)
    ∧ ∀ c ∈ rerank scDemo [] [w1, w2, w3],
        c.rerank_score = some (round4 (scDemo [] c.text)) := by
  have h := rerank_spec scDemo [] [w1, w2, w3]
  exact ⟨h.1, (h.2.1 (by decide)).1, (h.2.1 (by decide)).2⟩

/-- The chunk of the C9 counterexample (no `rerank_score` key). -/
def wSolo : RChunk := { text := "t".toList }

/--
**Claim C9, counterexample.** A single-chunk input is returned as-is with
no `rerank_score` field, contradicting "every returned chunk carries a
rerank_score field rounded to 4 decimals".
-/
theorem rerank_single_claim_counterexample :
    rerank scDemo [] [wSolo] = [wSolo] ∧ wSolo.rerank_score = none := by
  refine ⟨by decide, rfl⟩

/-! ## Vector store (`src/rag/store.py`) -/

/-- A row of the ChromaDB collection: id, document text, metadata and the
stored embedding. -/
structure Entry where
  chunk_id : List Char := []
  text : List Char := []
  company : List Char := []
  cik : List Char := []
  year : List Char := []
  filing_type : List Char := []
  «section» : List Char := []
  parent_section : List Char := []
  embedding : List ℚ := []
deriving DecidableEq, Repr

/-- `chunk_exists(chunk_id)`: is a row with this id stored? -/
def chunk_exists (st : List Entry) (id : List Char) : Bool :=
  st.any (fun e => decide (e.chunk_id = id))

/-- The row built for a new chunk by `add_chunks`: metadata copied from the
chunk, `parent_section` truncated to 2000 characters (ChromaDB metadata
limit), and the embedding computed from the chunk text. -/
def toEntry (embed : List Char → List ℚ) (c : Chunk) : Entry :=
  { chunk_id := c.chunk_id
    text := c.text
    company := c.company
    cik := c.cik
    year := c.year
    filing_type := c.filing_type
    «section» := c.«section»
    parent_section := c.parent_section.take 2000
    embedding := embed c.text }

/-- The batched `_collection.add` loop (`batch_size = 100`). Structural
recursion on a bound `fuel` on the number of batches (each step consumes at
least one entry, so the entry count is always sufficient; the final state is
`st ++ es` regardless, see `addBatches_eq_append`). -/
def addBatches : Nat → List Entry → List Entry → List Entry
  | _, st, [] => st
  | 0, st, es => st ++ es
  | fuel + 1, st, e :: es => addBatches fuel (st ++ (e :: es).take 100) ((e :: es).drop 100)

/-- `add_chunks(chunks)`: skip chunks whose id already exists, embed the
rest, and insert them in batches of ≤ 100. -/
def add_chunks (embed : List Char → List ℚ) (st : List Entry) (chunks : List Chunk) :
    List Entry :=
  if chunks = [] then st
  else
    let newChunks := chunks.filter (fun c => !chunk_exists st c.chunk_id)
    if newChunks = [] then st
    else addBatches (newChunks.map (toEntry embed)).length st (newChunks.map (toEntry embed))

theorem addBatches_eq_append :
    ∀ (fuel : Nat) (st es : List Entry), addBatches fuel st es = st ++ es := by
  intro fuel
  induction fuel with
  | zero =>
    intro st es
    cases es with
    | nil => simp [addBatches]
    | cons e es => rfl
  | succ fuel ih =>
    intro st es
    cases es with
    | nil => simp [addBatches]
    | cons e es =>
      rw [addBatches, ih, List.append_assoc, List.take_append_drop]

theorem chunk_exists_append (st l : List Entry) (id : List Char) :
    chunk_exists (st ++ l) id = (chunk_exists st id || chunk_exists l id) :=
  List.any_append

/-- Membership with a matching id makes `chunk_exists` true. -/
theorem chunk_exists_of_mem {l : List Entry} {e : Entry} (he : e ∈ l) :
    chunk_exists l e.chunk_id = true :=
  List.any_eq_true.mpr ⟨e, he, by simp⟩

/-- If every chunk's id already exists, `add_chunks` is a no-op. -/
theorem add_chunks_of_filter_nil (embed : List Char → List ℚ) (st : List Entry)
    (chunks : List Chunk)
    (h : chunks.filter (fun c => !chunk_exists st c.chunk_id) = []) :
    add_chunks embed st chunks = st := by
  by_cases hc : chunks = []
  · subst hc; simp [add_chunks]
  · simp only [add_chunks, if_neg hc, h]
    rfl

/--
**Claim C7 (confirmed).** Adding to the index is idempotent: a second add of
the same chunk list is a no-op (state and count unchanged), every inserted
row comes from a chunk whose id was absent, and adding a single chunk whose
id already exists leaves the store unchanged.
-/
theorem add_chunks_idempotent (embed : List Char → List ℚ) (st : List Entry)
    (chunks : List Chunk) :
    add_chunks embed (add_chunks embed st chunks) chunks = add_chunks embed st chunks
    ∧ (add_chunks embed (add_chunks embed st chunks) chunks).length
        = (add_chunks embed st chunks).length
    ∧ (∀ e ∈ add_chunks embed st chunks, e ∈ st ∨ chunk_exists st e.chunk_id = false)
    ∧ (∀ c : Chunk, chunk_exists st c.chunk_id = true → add_chunks embed st [c] = st) := by
  have hmain : add_chunks embed (add_chunks embed st chunks) chunks
      = add_chunks embed st chunks := by
    by_cases hc : chunks = []
    · subst hc; simp [add_chunks]
    · by_cases hnew : chunks.filter (fun c => !chunk_exists st c.chunk_id) = []
      · have hst1 : add_chunks embed st chunks = st := by
          simp [add_chunks, if_neg hc, hnew]
        rw [hst1]
        simp [add_chunks, if_neg hc, hnew]
      · have hst1 : add_chunks embed st chunks
            = st ++ (chunks.filter (fun c => !chunk_exists st c.chunk_id)).map (toEntry embed) := by
          simp only [add_chunks, if_neg hc, if_neg hnew]
          exact addBatches_eq_append _ _ _
        have hall : ∀ c ∈ chunks,
            chunk_exists (add_chunks embed st chunks) c.chunk_id = true := by
          intro c hcm
          rw [hst1, chunk_exists_append]
          by_cases hex : chunk_exists st c.chunk_id = true
          · simp [hex]
          · have hcf : c ∈ chunks.filter (fun c => !chunk_exists st c.chunk_id) :=
              List.mem_filter.mpr ⟨hcm, by simp [Bool.not_eq_true] at hex; simp [hex]⟩
            have : chunk_exists
                ((chunks.filter (fun c => !chunk_exists st c.chunk_id)).map (toEntry embed))
                c.chunk_id = true := by
              apply List.any_eq_true.mpr
              exact ⟨toEntry embed c, List.mem_map_of_mem _ hcf, by simp [toEntry]⟩
            simp [this]
        have hfilter2 : chunks.filter
            (fun c => !chunk_exists (add_chunks embed st chunks) c.chunk_id) = [] := by
          apply List.filter_eq_nil_iff.mpr
          intro c hcm
          simp [hall c hcm]
        exact add_chunks_of_filter_nil embed _ chunks hfilter2
  refine ⟨hmain, by rw [hmain], ?_, ?_⟩
  · intro e he
    by_cases hc : chunks = []
    · subst hc; simp only [add_chunks, if_pos rfl] at he; exact Or.inl he
    · by_cases hnew : chunks.filter (fun c => !chunk_exists st c.chunk_id) = []
      · simp only [add_chunks, if_neg hc, hnew, if_pos rfl] at he
        exact Or.inl he
      · rw [show add_chunks embed st chunks
            = st ++ (chunks.filter (fun c => !chunk_exists st c.chunk_id)).map (toEntry embed) by
              simp only [add_chunks, if_neg hc, if_neg hnew]
              exact addBatches_eq_append _ _ _] at he
        rcases List.mem_append.mp he with h | h
        · exact Or.inl h
        · obtain ⟨c, hcf, hce⟩ := List.mem_map.mp h
          have hnotex := (List.mem_filter.mp hcf).2
          right
          rw [← hce]
          show chunk_exists st (toEntry embed c).chunk_id = false
          simpa [toEntry, Bool.not_eq_true'] using hnotex
  · intro c hcex
    apply add_chunks_of_filter_nil
    simp [List.filter_cons, hcex]

/-- A concrete store row for the C7 witness. -/
def e0 : Entry := { chunk_id := "x".toList }

/-- A concrete chunk whose id already exists in the store of the C7 witness. -/
def c0 : Chunk :=
  { text := "t".toList, company := [], cik := [], year := [], filing_type := [],
    «section» := [], chunk_id := "x".toList, parent_section := [] }

/--
**Claim C7, witness.** Adding a chunk whose id is already stored is a no-op,
and every row of the result was already present or had an absent id.
-/
theorem add_chunks_idempotent_witness :
    add_chunks (fun _ => []) [e0] [c0] = [e0]
    ∧ (e0 ∈ [e0] ∨ chunk_exists [e0] e0.chunk_id = false) :=
  ⟨(add_chunks_idempotent (fun _ => []) [e0] [c0]).2.2.2 c0 (by decide),
   (add_chunks_idempotent (fun _ => []) [e0] [c0]).2.2.1 e0 (by decide)⟩

/-! ## MMR selection (`store.py`, `_mmr_select`; claims C5, C6) -/

/-- A candidate dict as parsed from a ChromaDB query by `_parse_results`. -/
structure Cand where
  chunk_id : List Char := []
  text : List Char := []
  company : List Char := []
  cik : List Char := []
  year : List Char := []
  filing_type : List Char := []
  «section» : List Char := []
  parent_section : List Char := []
  embedding : List ℚ := []
  similarity : ℚ := 0
deriving DecidableEq, Repr, Inhabited

/-- A selected candidate after `chunk.pop("embedding", None)`. -/
structure CandOut where
  chunk_id : List Char := []
  text : List Char := []
  company : List Char := []
  cik : List Char := []
  year : List Char := []
  filing_type : List Char := []
  «section» : List Char := []
  parent_section : List Char := []
  similarity : ℚ := 0
deriving DecidableEq, Repr, Inhabited

/-- Remove the raw vector before returning a selected chunk. -/
def dropEmbedding (c : Cand) : CandOut :=
  { chunk_id := c.chunk_id
    text := c.text
    company := c.company
    cik := c.cik
    year := c.year
    filing_type := c.filing_type
    «section» := c.«section»
    parent_section := c.parent_section
    similarity := c.similarity }

/-- Python `max` of a list (callers guard non-emptiness; `0` for `[]`). -/
def maxList : List ℚ → ℚ
  | [] => 0
  | x :: xs => xs.foldl max x

/-- The MMR score of a candidate against the query embedding and the
already-selected set: `λ·⟨v_c, q⟩ − (1−λ)·max_{s∈S}⟨v_c, v_s⟩`, with the
penalty 0 for an empty selected set. -/
def mmrScore (qe : List ℚ) (lam : ℚ) (selected : List Cand) (c : Cand) : ℚ :=
  let relevance := dotQ c.embedding qe
  let diversityPenalty :=
    if selected = [] then 0
    else maxList (selected.map (fun s => dotQ c.embedding s.embedding))
  lam * relevance - (1 - lam) * diversityPenalty

/-- The `for candidate in remaining` scan of `_mmr_select`: the running best
is replaced only on a strictly greater score (`if score > best_score`),
starting from `-inf` — equivalently, from the first candidate. -/
def pickLoop (score : Cand → ℚ) : (ℚ × Cand) → List Cand → ℚ × Cand
  | best, [] => best
  | best, c :: rest =>
    pickLoop score (if best.1 < score c then (score c, c) else best) rest

/-- The pick over a non-empty `remaining` list (head and tail). -/
def pickBestNE (qe : List ℚ) (lam : ℚ) (selected : List Cand) (c : Cand)
    (rest : List Cand) : ℚ × Cand :=
  pickLoop (mmrScore qe lam selected) (mmrScore qe lam selected c, c) rest

/-- The `while remaining and len(selected) < n_results` loop of
`_mmr_select`: pick the best remaining candidate, append it to `selected`,
and remove it (`remaining.remove`, first structurally-equal occurrence).
Structural recursion on a bound `fuel` on the number of iterations (each
iteration removes one candidate, so the candidate count is sufficient and
the value is then independent of `fuel`). -/
def mmrLoop (qe : List ℚ) (lam : ℚ) (n : Nat) :
    Nat → List Cand → List Cand → List Cand
  | _, selected, [] => selected
  | 0, selected, _ => selected
  | fuel + 1, selected, c :: rest =>
    if selected.length < n then
      let best := pickBestNE qe lam selected c rest
      mmrLoop qe lam n fuel (selected ++ [best.2]) ((c :: rest).erase best.2)
    else selected

/-- `_mmr_select(query_embedding, candidates, n_results, mmr_lambda)`. -/
def _mmr_select (qe : List ℚ) (candidates : List Cand) (n : Nat) (lam : ℚ) :
    List CandOut :=
  if candidates = [] then []
  else (mmrLoop qe lam n candidates.length [] candidates).map dropEmbedding

/-- Modelled from the claim's words for C6: the same greedy loop, but with
ties in the MMR score broken first by higher relevance `⟨v_c, q⟩` and then
by insertion order. -/
def pickLoopClaim (score rel : Cand → ℚ) : (ℚ × Cand) → List Cand → ℚ × Cand
  | best, [] => best
  | best, c :: rest =>
    pickLoopClaim score rel
      (if best.1 < score c ∨ (best.1 = score c ∧ rel best.2 < rel c)
       then (score c, c) else best) rest

/-- The claim-model loop (tie-break by rel, then insertion order). -/
def mmrLoopClaim (qe : List ℚ) (lam : ℚ) (n : Nat) :
    Nat → List Cand → List Cand → List Cand
  | _, selected, [] => selected
  | 0, selected, _ => selected
  | fuel + 1, selected, c :: rest =>
    if selected.length < n then
      let best := pickLoopClaim (mmrScore qe lam selected) (fun x => dotQ x.embedding qe)
        (mmrScore qe lam selected c, c) rest
      mmrLoopClaim qe lam n fuel (selected ++ [best.2]) ((c :: rest).erase best.2)
    else selected

/-- MMR selection as claim C6 states it (rel-first tie-breaking). -/
def mmrSelectClaim (qe : List ℚ) (candidates : List Cand) (n : Nat) (lam : ℚ) :
    List CandOut :=
  if candidates = [] then []
  else (mmrLoopClaim qe lam n candidates.length [] candidates).map dropEmbedding

/-! ### The code breaks ties by insertion order alone (claim C6) -/

theorem foldl_max_shift : ∀ (l : List ℚ) (i x : ℚ),
    l.foldl max (max i x) = max (l.foldl max i) x := by
  intro l
  induction l with
  | nil => intro i x; rfl
  | cons y l ih =>
    intro i x
    show l.foldl max (max (max i x) y) = max ((y :: l).foldl max i) x
    rw [show max (max i x) y = max (max i y) x by
      rw [max_assoc, max_assoc, max_comm x y]]
    exact ih (max i y) x

theorem foldl_max_init_le : ∀ (l : List ℚ) (i : ℚ), i ≤ l.foldl max i := by
  intro l
  induction l with
  | nil => intro i; exact le_refl i
  | cons y l ih =>
    intro i
    exact le_trans (le_max_left i y) (ih (max i y))

theorem foldl_max_mem : ∀ (l : List ℚ) (i : ℚ),
    l.foldl max i = i ∨ l.foldl max i ∈ l := by
  intro l
  induction l with
  | nil => intro i; exact Or.inl rfl
  | cons y l ih =>
    intro i
    show l.foldl max (max i y) = i ∨ _
    rcases ih (max i y) with h | h
    · rcases max_choice i y with hm | hm
      · exact Or.inl (h.trans hm)
      · exact Or.inr (List.mem_cons.mpr (Or.inl (h.trans hm)))
    · exact Or.inr (List.mem_cons.mpr (Or.inr h))

/--
**Claim C6, amended.** The greedy MMR scan keeps the **earliest** candidate
attaining the maximal score: `pickLoop` returns the running maximum of the
scores together with the first candidate attaining it (relevance plays no
tie-breaking role), and the first chunk `_mmr_select` returns is exactly
that pick over the full candidate list.
-/
theorem mmr_tie_insertion_order :
    (∀ (score : Cand → ℚ) (best : ℚ × Cand) (l : List Cand),
      best.1 = score best.2 →
      pickLoop score best l =
        (if (l.map score).foldl max best.1 ≤ best.1 then best
         else ((l.map score).foldl max best.1,
           (l.find? (fun x => score x == (l.map score).foldl max best.1)).getD best.2)))
    ∧ (∀ (qe : List ℚ) (lam : ℚ) (n : Nat) (c : Cand) (rest : List Cand),
        0 < n →
        (_mmr_select qe (c :: rest) n lam).headI
          = dropEmbedding (pickBestNE qe lam [] c rest).2) := by
  constructor
  · intro score best l hbest
    induction l generalizing best with
    | nil => simp [pickLoop]
    | cons c rest ih =>
      show pickLoop score (if best.1 < score c then (score c, c) else best) rest = _
      simp only [List.map_cons, List.foldl_cons]
      by_cases hc : best.1 < score c
      · rw [if_pos hc, ih (score c, c) rfl]
        rw [max_eq_right (le_of_lt hc)]
        have hMge : score c ≤ (rest.map score).foldl max (score c) :=
          foldl_max_init_le _ _
        rw [if_neg (not_le.mpr (lt_of_lt_of_le hc hMge))]
        by_cases hqc : score c = (rest.map score).foldl max (score c)
        · rw [List.find?_cons_of_pos _ (by simpa using hqc)]
          rw [if_pos (le_of_eq hqc.symm)]
          simp [← hqc]
        · have hlt : score c < (rest.map score).foldl max (score c) :=
            lt_of_le_of_ne hMge hqc
          rw [if_neg (not_le.mpr hlt)]
          rw [List.find?_cons_of_neg _ (by simpa using hqc)]
          have hex : ∃ y ∈ rest,
              (fun x => score x == (rest.map score).foldl max (score c)) y = true := by
            rcases foldl_max_mem (rest.map score) (score c) with h | h
            · exact absurd h.symm hqc
            · obtain ⟨y, hy, hsy⟩ := List.mem_map.mp h
              exact ⟨y, hy, by simp [hsy]⟩
          obtain ⟨z, hz⟩ := Option.isSome_iff_exists.mp (List.find?_isSome.mpr hex)
          rw [hz]
          rfl
      · rw [if_neg hc, ih best hbest]
        rw [max_eq_left (not_lt.mp hc)]
        by_cases hM : (rest.map score).foldl max best.1 ≤ best.1
        · rw [if_pos hM, if_pos hM]
        · rw [if_neg hM, if_neg hM]
          have hne : ¬ (score c = (rest.map score).foldl max best.1) := by
            intro h
            exact hM (h ▸ not_lt.mp hc)
          rw [List.find?_cons_of_neg _ (by simpa using hne)]
  · have hprefix : ∀ (qe : List ℚ) (lam : ℚ) (n fuel : Nat)
        (rem sel : List Cand), ∃ t, mmrLoop qe lam n fuel sel rem = sel ++ t := by
      intro qe lam n fuel
      induction fuel with
      | zero =>
        intro rem sel
        cases rem with
        | nil => exact ⟨[], by simp [mmrLoop]⟩
        | cons c rest => exact ⟨[], by simp [mmrLoop]⟩
      | succ fuel ih =>
        intro rem sel
        cases rem with
        | nil => exact ⟨[], by simp [mmrLoop]⟩
        | cons c rest =>
          simp only [mmrLoop]
          split
          · obtain ⟨t, ht⟩ := ih ((c :: rest).erase (pickBestNE qe lam sel c rest).2)
              (sel ++ [(pickBestNE qe lam sel c rest).2])
            refine ⟨(pickBestNE qe lam sel c rest).2 :: t, ?_⟩
            rw [ht]
            simp
          · exact ⟨[], by simp⟩
    intro qe lam n c rest hn
    simp only [_mmr_select, if_neg (List.cons_ne_nil c rest), List.length_cons]
    simp only [mmrLoop]
    rw [if_pos (by simpa using hn)]
    obtain ⟨t, ht⟩ := hprefix qe lam n rest.length
      ((c :: rest).erase (pickBestNE qe lam [] c rest).2)
      ([] ++ [(pickBestNE qe lam [] c rest).2])
    rw [ht]
    simp

/-- Query embedding for the C6 counterexample. -/
def qeC6 : List ℚ := [1, 0]

/-- First candidate of the C6 counterexample (relevance 1, selected first). -/
def candX : Cand := { chunk_id := "x".toList, embedding := [1, 1], similarity := 1 }

/-- Second candidate (relevance 0, MMR score 0 in round two). -/
def candA : Cand := { chunk_id := "a".toList, embedding := [0, 0], similarity := 0 }

/-- Third candidate (relevance 3/7 > 0, but also MMR score 0 in round two:
`0.7·(3/7) − 0.3·⟨(3/7,4/7),(1,1)⟩ = 0.3 − 0.3 = 0`). -/
def candB : Cand := { chunk_id := "b".toList, embedding := [3/7, 4/7], similarity := 3/7 }

/--
**Claim C6, counterexample.** In round two the candidates `candA` and
`candB` tie at MMR score 0 with different relevances (0 vs 3/7). The code's
strict `>` keeps the earlier `candA`; the claim's rel-first tie-break picks
`candB`; the outputs differ.
-/
theorem mmr_select_claim_counterexample :
    _mmr_select qeC6 [candX, candA, candB] 3 (7/10)
      ≠ mmrSelectClaim qeC6 [candX, candA, candB] 3 (7/10) := by
  decide

/--
**Claim C6, witness (for the amended theorem).** The pick equation and the
head property at concrete inputs.
-/
theorem mmr_tie_insertion_order_witness :
    (pickLoop (fun x => x.similarity) (candX.similarity, candX) [candA, candB] =
      (if (([candA, candB].map (fun x => x.similarity)).foldl max candX.similarity
            ≤ candX.similarity) then (candX.similarity, candX)
       else (([candA, candB].map (fun x => x.similarity)).foldl max candX.similarity,
         ([candA, candB].find? (fun x => x.similarity
            == ([candA, candB].map (fun x => x.similarity)).foldl max candX.similarity)).getD
           candX)))
    ∧ (_mmr_select qeC6 [candX, candA] 3 (7/10)).headI
        = dropEmbedding (pickBestNE qeC6 (7/10) [] candX [candA]).2 :=
  ⟨mmr_tie_insertion_order.1 (fun x => x.similarity) (candX.similarity, candX)
      [candA, candB] rfl,
   mmr_tie_insertion_order.2 qeC6 (7/10) 3 candX [candA] (by decide)⟩

/-! ## Filtered similarity search (`store.py`, `search_mmr`) and
per-year retrieval (`retriever.py`, `retrieve_mmr`; claim C5) -/

/-- `_build_filter(cik, year)` semantics: a conjunction of metadata
equalities (absent fields unconstrained). -/
def matchesFilter (cik year : Option (List Char)) (e : Entry) : Bool :=
  (match cik with
    | none => true
    | some v => decide (e.cik = v))
  && (match year with
    | none => true
    | some v => decide (e.year = v))

/-- Stable descending insertion by a rational key. -/
def insertDescBy {α : Type} (key : α → ℚ) (x : α) : List α → List α
  | [] => [x]
  | y :: ys => if key x < key y then y :: insertDescBy key x ys else x :: y :: ys

/-- Stable descending sort by a rational key: the model of ChromaDB's
ordering of query results by increasing cosine distance (ties are not
pinned down by the backing store; the concrete inputs below use distinct
similarities). -/
def sortDescBy {α : Type} (key : α → ℚ) : List α → List α
  | [] => []
  | x :: xs => insertDescBy key x (sortDescBy key xs)

/-- `_parse_results`: a returned row as a candidate dict. ChromaDB's cosine
distance is `1 − ⟨v, q⟩`, and the code sets `similarity = 1 - distance`. -/
def entryToCand (qe : List ℚ) (e : Entry) : Cand :=
  { chunk_id := e.chunk_id
    text := e.text
    company := e.company
    cik := e.cik
    year := e.year
    filing_type := e.filing_type
    «section» := e.«section»
    parent_section := e.parent_section
    embedding := e.embedding
    similarity := 1 - (1 - dotQ e.embedding qe) }

/-- `search_mmr(query, cik, year, n_results, mmr_lambda)`: fetch the top
`min(50, collection.count())` rows by similarity under the metadata filter,
then MMR-select `n_results` of them. -/
def search_mmr (embed : List Char → List ℚ) (st : List Entry) (q : List Char)
    (cik year : Option (List Char)) (n_results : Nat) (lam : ℚ) : List CandOut :=
  let nCandidates := min 50 st.length
  if nCandidates = 0 then []
  else
    let qe := embed q
    let results := (sortDescBy (fun e => dotQ e.embedding qe)
      (st.filter (matchesFilter cik year))).take nCandidates
    if results = [] then []
    else _mmr_select qe (results.map (entryToCand qe)) n_results lam

/-- `retrieve_mmr(expanded_query, cik, years, n_results = 20)`: one
`search_mmr` per year (10 results each, λ = 0.7), concatenated; a single
company-only query when the union is empty; truncated to `n_results`. -/
def retrieve_mmr (embed : List Char → List ℚ) (st : List Entry)
    (expandedQuery : List Char) (cik : List Char) (years : List (List Char))
    (n_results : Nat := 20) : List CandOut :=
  let allCandidates := years.foldl
    (fun acc y => acc ++ search_mmr embed st expandedQuery (some cik) (some y) 10 (7/10)) []
  let allCandidates2 :=
    if allCandidates = []
    then search_mmr embed st expandedQuery (some cik) none n_results (7/10)
    else allCandidates
  allCandidates2.take n_results

/-- Modelled from the claim's words for C5: gather up to 10 raw-similarity
candidates per year (filtered by company and year), concatenate across years
(at most 50 total), fall back to a single company-only query only when that
union is empty, then apply MMR selection over the combined candidate set to
pick the final 20. -/
def rawTopK (st : List Entry) (qe : List ℚ) (cik year : Option (List Char))
    (k : Nat) : List Cand :=
  ((sortDescBy (fun e => dotQ e.embedding qe)
    (st.filter (matchesFilter cik year))).take k).map (entryToCand qe)

/-- MMR candidate retrieval as claim C5 states it. -/
def retrieveMmrClaim (embed : List Char → List ℚ) (st : List Entry)
    (q : List Char) (cik : List Char) (years : List (List Char)) : List CandOut :=
  let qe := embed q
  let union := ((years.map (fun y => rawTopK st qe (some cik) (some y) 10)).flatten).take 50
  let cands := if union = [] then rawTopK st qe (some cik) none 50 else union
  _mmr_select qe cands 20 (7/10)

theorem foldl_append_eq_flatten {β γ : Type} :
    ∀ (l : List β) (f : β → List γ) (acc : List γ),
      l.foldl (fun a y => a ++ f y) acc = acc ++ (l.map f).flatten := by
  intro l
  induction l with
  | nil => intro f acc; simp
  | cons y ys ih =>
    intro f acc
    show ys.foldl (fun a y => a ++ f y) (acc ++ f y) = _
    rw [ih f (acc ++ f y)]
    simp

/--
**Claim C5, amended.** `retrieve_mmr` issues one `search_mmr` query per
year (each of which internally fetches up to `min(50, count)` raw-similarity
candidates under the company∧year filter and MMR-selects up to 10 of them),
concatenates the per-year MMR selections, falls back to a single
company-only `search_mmr` for `n_results` only when that concatenation is
empty, and returns the first `n_results` (default 20) of the result with no
further MMR pass over the combined set.
-/
theorem retrieve_mmr_amended (embed : List Char → List ℚ) (st : List Entry)
    (q : List Char) (cik : List Char) (years : List (List Char)) (n : Nat) :
    retrieve_mmr embed st q cik years n =
      (if (years.map (fun y => search_mmr embed st q (some cik) (some y) 10 (7/10))).flatten = []
       then search_mmr embed st q (some cik) none n (7/10)
       else (years.map (fun y => search_mmr embed st q (some cik) (some y) 10 (7/10))).flatten).take n
    ∧ (retrieve_mmr embed st q cik years n).length ≤ n := by
  have hfold := foldl_append_eq_flatten years
    (fun y => search_mmr embed st q (some cik) (some y) 10 (7/10)) []
  constructor
  · simp only [retrieve_mmr, hfold, List.nil_append]
  · simp only [retrieve_mmr]
    rw [List.length_take]
    omega

/-- Embedding stub for the C5 counterexample (query embedding `(1,0)`). -/
def embedQ : List Char → List ℚ := fun t => if t = "q".toList then [1, 0] else []

/-- An 11-row store for one company and one year. Raw similarities (dot with
`(1,0)`): a=1, b=0.98, c1..c8 ∈ [0.76, 0.9], k=0.6. `b` nearly duplicates
`a` (⟨b,a⟩ = 1.97), so the per-year MMR selection of 10 keeps the diverse
`k` and drops `b`, while the raw-similarity top 10 keeps `b` and drops `k`. -/
def st11 : List Entry :=
  [ { chunk_id := "a".toList, cik := "c".toList, year := "y".toList, embedding := [1, 1] },
    { chunk_id := "b".toList, cik := "c".toList, year := "y".toList, embedding := [49/50, 99/100] },
    { chunk_id := "c1".toList, cik := "c".toList, year := "y".toList, embedding := [9/10, 0] },
    { chunk_id := "c2".toList, cik := "c".toList, year := "y".toList, embedding := [22/25, 0] },
    { chunk_id := "c3".toList, cik := "c".toList, year := "y".toList, embedding := [43/50, 0] },
    { chunk_id := "c4".toList, cik := "c".toList, year := "y".toList, embedding := [21/25, 0] },
    { chunk_id := "c5".toList, cik := "c".toList, year := "y".toList, embedding := [41/50, 0] },
    { chunk_id := "c6".toList, cik := "c".toList, year := "y".toList, embedding := [4/5, 0] },
    { chunk_id := "c7".toList, cik := "c".toList, year := "y".toList, embedding := [39/50, 0] },
    { chunk_id := "c8".toList, cik := "c".toList, year := "y".toList, embedding := [19/25, 0] },
    { chunk_id := "k".toList, cik := "c".toList, year := "y".toList, embedding := [3/5, 0] } ]

set_option maxRecDepth 100000 in
/--
**Claim C5, counterexample.** On an 11-row single-year store the code's
per-year query MMR-selects 10 out of all 11 raw candidates and returns a
chunk (`"k"`) that is **not** among the year's 10 raw-similarity candidates;
the claim's procedure (gather raw top-10 per year, then MMR over the union)
can never return it. The two procedures therefore differ.
-/
theorem retrieve_mmr_claim_counterexample :
    "k".toList ∈ (retrieve_mmr embedQ st11 "q".toList "c".toList ["y".toList] 20).map
      CandOut.chunk_id
    ∧ "k".toList ∉ (retrieveMmrClaim embedQ st11 "q".toList "c".toList ["y".toList]).map
      CandOut.chunk_id := by
  refine ⟨by decide, by decide⟩

/-! ## Pipeline orchestrator (`src/rag/pipeline.py`; claim C1)

`search_filing` is modelled in a small Python-evaluation monad `PyM` that
threads an effect trace (which ingestion and retrieval operations actually
ran) and short-circuits on raised exceptions, mirroring Python's dynamic
name resolution: referencing a name absent from the module globals raises
`NameError` at that point, and binding a keyword argument that a callee does
not accept raises `TypeError` before the callee's body runs. -/

/-- Observable side effects of the orchestrator. -/
inductive Effect
  | ingest
  | retrieveQuery
deriving DecidableEq, Repr

/-- Python exceptions relevant to `search_filing`. -/
inductive PyErr
  | nameError (n : String)
  | typeError (msg : String)
deriving DecidableEq, Repr

/-- Evaluation monad: effect trace plus exception short-circuiting. -/
def PyM (α : Type) : Type := List Effect → Except PyErr α × List Effect

instance : Monad PyM where
  pure a := fun s => (Except.ok a, s)
  bind x k := fun s =>
    match x s with
    | (Except.ok a, s1) => k a s1
    | (Except.error e, s1) => (Except.error e, s1)

/-- Raise an exception. -/
def throwP {α : Type} (e : PyErr) : PyM α := fun s => (Except.error e, s)

/-- Record an effect. -/
def emitEff (e : Effect) : PyM Unit := fun s => (Except.ok (), s ++ [e])

/-- The names bound at module scope in `src/rag/pipeline.py`: the imports
(`sys`, `Path`, `datetime`, and the four `rag` modules) and the five
functions the file defines. Note `_find_missing_years` is defined but
`_find_missing_filings` is not, and no `cache` module is imported. -/
def pipelineGlobals : List String :=
  ["sys", "Path", "datetime", "ingestion", "chunker", "store", "retriever",
   "search_filing", "_get_target_years", "_find_missing_years",
   "_ingest_and_store", "_clean_chunks"]

/-- Python name resolution against the module globals. -/
def resolveNameM (n : String) : PyM Unit :=
  if n ∈ pipelineGlobals then pure () else throwP (PyErr.nameError n)

/-- `_get_target_years(n)`: the last `n` calendar years as strings. -/
def _get_target_years (currentYear : Int) (n : Nat) : List String :=
  (List.range n).map (fun i => toString (currentYear - i))

/-- The parameters of `retriever.retrieve(query, cik, years)`
(`src/rag/retriever.py` line 47). -/
def retrieveParams : List String := ["query", "cik", "years"]

/-- The parameters of `ingestion.ingest_recent_filings(cik_padded, years,
filing_type)` (`src/rag/ingestion.py` line 104). -/
def ingestRecentFilingsParams : List String := ["cik_padded", "years", "filing_type"]

/-- The call `_find_missing_filings(cik_padded, target_years,
target_quarters)` at `pipeline.py` line 54. Python evaluates the callee
expression before the arguments; the name is not among `pipelineGlobals`
(the helper that exists is `_find_missing_years`), so the reference raises
`NameError` and no argument or body is ever evaluated. -/
def call_find_missing_filings : PyM (List String) := do
  resolveNameM "_find_missing_filings"
  pure []

/-- The call `ingestion.ingest_recent_filings(cik_padded=..., years=...,
quarters=..., filing_type=...)` at `pipeline.py` lines 102-107: the keyword
`quarters` is not a parameter of `ingest_recent_filings`, so binding fails
with `TypeError` before any ingestion runs (the guarded branch models the
body that would run if the binding succeeded). -/
def call_ingest_recent_filings : PyM (List Ingested) :=
  if "quarters" ∈ ingestRecentFilingsParams then do
    emitEff Effect.ingest
    pure []
  else
    throwP (PyErr.typeError "ingest_recent_filings() got an unexpected keyword argument quarters")

/-- The `for filing_type in filing_types` loop of `_ingest_and_store`
(chunking, stats and `store.add_chunks` follow the ingestion call inside
the loop body and are unreachable past the raised `TypeError`). -/
def ingestLoop : List String → PyM Unit
  | [] => pure ()
  | _ft :: rest => do
    let _filings ← call_ingest_recent_filings
    ingestLoop rest

/-- `_ingest_and_store(...)`: the filing-type loop, then
`cache.clear_filing_cache(cik_padded)` — but `cache` is not imported in
`pipeline.py`, so that final line raises `NameError`. -/
def _ingest_and_store (filingTypes : List String) : PyM Unit := do
  ingestLoop filingTypes
  resolveNameM "cache"

/-- The call `retriever.retrieve(query=..., cik=..., years=...,
quarters=..., filing_types=...)` at `pipeline.py` lines 62-68: `retrieve`
accepts only `(query, cik, years)`, so the keyword binding raises
`TypeError` before retrieval runs. -/
def call_retrieve (_query _cik : String)
    (_years _quarters _filingTypes : List String) : PyM (List RChunk) :=
  if "quarters" ∈ retrieveParams ∧ "filing_types" ∈ retrieveParams then do
    emitEff Effect.retrieveQuery
    pure []
  else
    throwP (PyErr.typeError "retrieve() got an unexpected keyword argument")

/-- A citation dict as returned by `_clean_chunks`. -/
structure CleanChunk where
  text : List Char
  company : List Char
  cik : List Char
  year : List Char
  quarter : List Char
  filing_type : List Char
  «section» : List Char
  rerank_score : ℚ
  crag_trimmed : Bool
deriving DecidableEq, Repr

/-- `_clean_chunks(chunks)`: strip internal fields, with `.get` defaults. -/
def _clean_chunks (chunks : List RChunk) : List CleanChunk :=
  chunks.map (fun c =>
    { text := c.text
      company := c.company
      cik := c.cik
      year := c.year
      quarter := c.quarter
      filing_type := c.filing_type
      «section» := c.«section»
      rerank_score := c.rerank_score.getD 0
      crag_trimmed := c.crag_trimmed })

/-- `search_filing(cik_padded, query, filing_types, years, quarters)`:
steps 1-5 of the orchestrator (`pipeline.py` lines 26-71). -/
def search_filing (currentYear : Int) (cikPadded query : String)
    (filingTypes : List String) (years : Nat) (quarters : Option (List String)) :
    PyM (List CleanChunk) := do
  let targetYears := _get_target_years currentYear years
  let targetQuarters := quarters.getD ["QTR1", "QTR2", "QTR3", "QTR4"]
  let missingFilings ← call_find_missing_filings
  if missingFilings ≠ [] then
    _ingest_and_store filingTypes
  let results ← call_retrieve query cikPadded targetYears targetQuarters filingTypes
  pure (_clean_chunks results)

/--
**Claim C1 (confirmed).** For every input, `search_filing` raises
`NameError: _find_missing_filings` at step 2, before any ingestion or
retrieval effect is recorded (the trace is unchanged), and never returns a
result list normally. The module binds `_find_missing_years` but not
`_find_missing_filings`; moreover `cache` is unbound and the
`retriever.retrieve` call site passes keywords `quarters` and
`filing_types` that `retrieve` does not accept.
-/
theorem search_filing_always_raises (currentYear : Int) (cikPadded query : String)
    (filingTypes : List String) (years : Nat) (quarters : Option (List String))
    (trace : List Effect) :
    search_filing currentYear cikPadded query filingTypes years quarters trace
      = (Except.error (PyErr.nameError "_find_missing_filings"), trace)
    ∧ "_find_missing_filings" ∉ pipelineGlobals
    ∧ "_find_missing_years" ∈ pipelineGlobals
    ∧ "cache" ∉ pipelineGlobals
    ∧ "quarters" ∉ retrieveParams
    ∧ "filing_types" ∉ retrieveParams := by
  refine ⟨rfl, by decide, by decide, by decide, by decide, by decide⟩

end Toshi
